import Mathlib

/-!
Verification of the callscript-v2 worker pipeline core.

This file gives a shallow embedding, in Lean 4, of the concurrency and
data-processing core of the repository:

* the `core.calls` row and the two atomic claim (optimistic-lock) updates
  (`src/scripts/test_vault_locking.py:attempt_lock` for the sentinel-field
  CAS and `src/workers/core/db.py:CallsRepository.lock_call` for the
  status-field CAS);
* the transcription lane's retry / dead-letter lifecycle
  (`CallsRepository.mark_failed`, `CallsRepository.save_transcription`,
  driven by `src/workers/factory/worker.py:process_call`);
* the circuit breaker (`src/workers/core/circuit_breaker.py`);
* the backfill chunker (`src/workers/ingest/worker.py:run_backfill`);
* the long-media merge routines (`src/workers/core/models.py`:
  `_merge_chunk_transcripts`, `_remove_overlap`,
  `_merge_diarization_segments`, `diarize`);
* the speaker-text alignment (`src/workers/core/alignment.py`);
* the judge lane's disposition rule and short-transcript skip
  (`src/workers/judge/worker.py`).

Modelling conventions: timestamps and audio times are rationals (`ℚ`);
wall-clock instants fed to `datetime.now` / `time.time` are explicit `Nat`
parameters; a Supabase conditional `update(...).eq(...).execute()` is an
atomic step on the row, returning `some updatedRow` when the condition
matched and `none` otherwise; concurrent atomic steps are modelled by
serializing them in an arbitrary order, which is exact because each step
is a single atomic database statement.
-/

/-- Payload stored in the `qa_flags` JSONB column of `core.calls`.  The
judge lane writes one of three shapes: the lock marker written by
`fetch_and_lock_batch`, the skip record written by
`JudgeRepository.mark_skipped`, the analysis record written by
`JudgeRepository.save_qa_results`, or the error record written by
`JudgeRepository.mark_failed`. -/
inductive QaFlags where
  | lockMarker (locked_at : Nat)
  | skipRecord (reason : String) (transcript_length : Nat) (skipped_at : Nat)
  | analysisRecord (score : Int) (flagged : Bool) (summary : String)
      (issues : List String) (pii_detected hostility_detected sales_success : Bool)
      (customer_sentiment compliance_risk : String) (analyzed_at : Nat)
  | errorRecord (msg : String) (failed_at : Nat)
  deriving DecidableEq, Repr

/-- One diarization segment dict `{"start": float, "end": float,
"speaker": str}` as produced by `_diarize_single` in
`src/workers/core/models.py`.  `stop` embeds the dict key `"end"`
(a Lean keyword). -/
structure DiarSeg where
  start : ℚ
  stop : ℚ
  speaker : String
  deriving DecidableEq, Repr

/-- A row of the `core.calls` table, restricted to the columns the core
pipeline reads or writes.  `retry_count` is kept as `Nat` (the repository
normalizes a NULL `retry_count` to 0 on fetch). -/
structure CallRow where
  id : String
  status : String
  retry_count : Nat
  storage_path : Option String
  processing_error : Option String
  transcript_text : Option String
  transcript_segments : Option (List DiarSeg)
  qa_flags : Option QaFlags
  qa_version : Option String
  judge_model : Option String
  updated_at : Nat
  deriving DecidableEq, Repr

/-! ## Claim primitives (Lock Manager)

Each claim is a single Supabase conditional `update`: it succeeds (returns
the updated row) exactly when every `.eq` / `.is_` filter matched, and
leaves the row untouched otherwise. -/

/-- Sentinel-field CAS of the vault lane, as exercised by `attempt_lock`
in `src/scripts/test_vault_locking.py` (lines 77-98): set `storage_path`
to a non-null lock value, and bump `updated_at`, only if the row still
has `status = 'pending'` and `storage_path IS NULL`.  Returns the updated
row on success, `none` ("not claimed") otherwise, together with the row
after the statement. -/
def attemptLock (lockValue : String) (now : Nat) (c : CallRow) :
    Option CallRow × CallRow :=
  if c.status = "pending" ∧ c.storage_path = none then
    let c' := { c with storage_path := some lockValue, updated_at := now }
    (some c', c')
  else (none, c)

/-- Status-field CAS of the transcription lane,
`CallsRepository.lock_call` in `src/workers/core/db.py` (lines 79-118):
move the row to `status = 'processing'` with `retry_count` set to the
caller's fetched count plus one, only if `status` is still
`'downloaded'`. -/
def lock_call (currentRetryCount : Nat) (now : Nat) (c : CallRow) :
    Option CallRow × CallRow :=
  if c.status = "downloaded" then
    let c' := { c with status := "processing",
                       retry_count := currentRetryCount + 1,
                       updated_at := now }
    (some c', c')
  else (none, c)

/-- Serialize a set of concurrent sentinel-CAS claim attempts (each
attempt carries its lock value and the wall-clock instant of its
statement).  Because every attempt is one atomic statement, an arbitrary
interleaving of N concurrent attempts is exactly a sequence. -/
def runSentinelAttempts : List (String × Nat) → CallRow →
    List (Option CallRow) × CallRow
  | [], c => ([], c)
  | (v, t) :: rest, c =>
    let r := attemptLock v t c
    let rec' := runSentinelAttempts rest r.2
    (r.1 :: rec'.1, rec'.2)

/-- Serialize a set of concurrent status-CAS claim attempts (each carries
the retry count its worker fetched, and its instant). -/
def runStatusAttempts : List (Nat × Nat) → CallRow →
    List (Option CallRow) × CallRow
  | [], c => ([], c)
  | (k, t) :: rest, c =>
    let r := lock_call k t c
    let rec' := runStatusAttempts rest r.2
    (r.1 :: rec'.1, rec'.2)

/-! ## Transcription lane lifecycle (Retry / Dead-Letter policy) -/

/-- `error[:500] if error else "Unknown error"` from
`CallsRepository.mark_failed`. -/
def errTrunc (e : String) : String :=
  if e = "" then "Unknown error" else e.take 500

/-- `CallsRepository.mark_failed` (`src/workers/core/db.py`, lines
190-228): with `max_retries = 3`, move to `'failed'` when the current
retry count has reached the ceiling, otherwise reset to `'downloaded'`;
either way record the truncated error. -/
def mark_failed (error : String) (currentRetryCount : Nat) (now : Nat)
    (c : CallRow) : CallRow :=
  let newStatus := if 3 ≤ currentRetryCount then "failed" else "downloaded"
  { c with status := newStatus,
           processing_error := some (errTrunc error),
           updated_at := now }

/-- `CallsRepository.save_transcription` (`src/workers/core/db.py`, lines
161-188): write the results, advance to `'transcribed'`, clear the
error. -/
def save_transcription (text : String) (segments : List DiarSeg) (now : Nat)
    (c : CallRow) : CallRow :=
  { c with status := "transcribed",
           transcript_text := some text,
           transcript_segments := some segments,
           processing_error := none,
           updated_at := now }

/-- Outcome of the external processing of one claimed call (download,
transcription, diarization): either results, or the error string of the
exception that aborted it. -/
inductive ProcOutcome where
  | success (text : String) (segments : List DiarSeg)
  | failure (error : String)
  deriving DecidableEq, Repr

/-- One poll round of a transcription worker over a given call, following
`src/workers/factory/worker.py:process_call` together with the fetch
query of `CallsRepository.fetch_next_pending_call`: the call is eligible
when `status = 'downloaded'` and `retry_count < 3`; the worker then
claims it via `lock_call` (which sets `retry_count` to the fetched count
plus one) and, on failure, calls `mark_failed` with that same
incremented count (`repo.mark_failed(call_id, error_msg, retry_count + 1)`,
line 171); on success it calls `save_transcription`. -/
def processRound (o : ProcOutcome) (now : Nat) (c : CallRow) : CallRow :=
  if c.status = "downloaded" ∧ c.retry_count < 3 then
    let fetched := c.retry_count
    let locked := (lock_call fetched now c).2
    match o with
    | .success t s => save_transcription t s now locked
    | .failure e => mark_failed e (fetched + 1) now locked
  else c

/-- A sequence of poll rounds on the same call, each with its outcome and
instant. -/
def runRounds : List (ProcOutcome × Nat) → CallRow → CallRow
  | [], c => c
  | (o, t) :: rest, c => runRounds rest (processRound o t c)

/-! ## C1: mutual exclusion of concurrent claims -/

/-- Once the sentinel field is non-null (or the status has left
`'pending'`), every later sentinel claim attempt returns "not claimed"
and leaves the row untouched. -/
theorem runSentinelAttempts_not_claimable (atts : List (String × Nat))
    (c : CallRow) (h : ¬(c.status = "pending" ∧ c.storage_path = none)) :
    (runSentinelAttempts atts c).1 = atts.map (fun _ => none)
      ∧ (runSentinelAttempts atts c).2 = c := by
  induction atts with
  | nil => simp [runSentinelAttempts]
  | cons a rest ih =>
    obtain ⟨v, t⟩ := a
    simp only [runSentinelAttempts, attemptLock, if_neg h]
    simpa using ih

/-- Once the status has left `'downloaded'`, every later status-CAS claim
attempt returns "not claimed" and leaves the row untouched. -/
theorem runStatusAttempts_not_claimable (atts : List (Nat × Nat))
    (c : CallRow) (h : ¬(c.status = "downloaded")) :
    (runStatusAttempts atts c).1 = atts.map (fun _ => none)
      ∧ (runStatusAttempts atts c).2 = c := by
  induction atts with
  | nil => simp [runStatusAttempts]
  | cons a rest ih =>
    obtain ⟨k, t⟩ := a
    simp only [runStatusAttempts, lock_call, if_neg h]
    simpa using ih

/-- C1.  For every call record and every set of N ≥ 1 concurrent claim
attempts on it by workers of the same lane — whether the sentinel-field
CAS of the vault lane on a `'pending'` record with a null
`storage_path`, or the status CAS `'downloaded' → 'processing'` of the
transcription lane — exactly one attempt succeeds; every successful
attempt returns the updated record (the final row); the other N − 1
return "not claimed" (`none`) rather than an error; a failed attempt is
no partial update (it leaves the row exactly as it was); and the
sentinel CAS leaves the status untouched. -/
theorem claim_mutual_exclusion
    (sAtts : List (String × Nat)) (kAtts : List (Nat × Nat)) (c d : CallRow)
    (hcs : c.status = "pending") (hcp : c.storage_path = none)
    (hs : sAtts ≠ []) (hds : d.status = "downloaded") (hk : kAtts ≠ []) :
    ((runSentinelAttempts sAtts c).1.countP (·.isSome) = 1
      ∧ (∀ r ∈ (runSentinelAttempts sAtts c).1,
          r = none ∨ r = some (runSentinelAttempts sAtts c).2)
      ∧ (runSentinelAttempts sAtts c).2.status = c.status)
    ∧ ((runStatusAttempts kAtts d).1.countP (·.isSome) = 1
      ∧ (∀ r ∈ (runStatusAttempts kAtts d).1,
          r = none ∨ r = some (runStatusAttempts kAtts d).2))
    ∧ (∀ (v : String) (t : Nat) (e : CallRow),
        (attemptLock v t e).1 = none → (attemptLock v t e).2 = e)
    ∧ (∀ (k t : Nat) (e : CallRow),
        (lock_call k t e).1 = none → (lock_call k t e).2 = e) := by
  refine ⟨?_, ?_, ?_, ?_⟩
  · -- sentinel CAS: the first attempt wins, all others lose
    obtain ⟨⟨v, t⟩, rest, rfl⟩ := List.exists_cons_of_ne_nil hs
    have hcond : c.status = "pending" ∧ c.storage_path = none := ⟨hcs, hcp⟩
    simp only [runSentinelAttempts, attemptLock, if_pos hcond]
    have hrest := runSentinelAttempts_not_claimable rest
      { c with storage_path := some v, updated_at := t }
      (by simp)
    refine ⟨?_, ?_, ?_⟩
    · simp [hrest.1, List.countP_eq_zero.mpr]
    · intro r hr
      rw [List.mem_cons] at hr
      rcases hr with rfl | h
      · right
        rw [hrest.2]
      · left
        rw [hrest.1] at h
        obtain ⟨a, -, h2⟩ := List.mem_map.mp h
        exact h2.symm
    · rw [hrest.2]
  · -- status CAS: the first attempt wins, all others lose
    obtain ⟨⟨k, t⟩, rest, rfl⟩ := List.exists_cons_of_ne_nil hk
    simp only [runStatusAttempts, lock_call, if_pos hds]
    have hrest := runStatusAttempts_not_claimable rest
      { d with status := "processing", retry_count := k + 1, updated_at := t }
      (by simp)
    refine ⟨?_, ?_⟩
    · simp [hrest.1, List.countP_eq_zero.mpr]
    · intro r hr
      rw [List.mem_cons] at hr
      rcases hr with rfl | h
      · right
        rw [hrest.2]
      · left
        rw [hrest.1] at h
        obtain ⟨a, -, h2⟩ := List.mem_map.mp h
        exact h2.symm
  · intro v t e h
    by_cases hc : e.status = "pending" ∧ e.storage_path = none
    · simp [attemptLock, hc] at h
    · simp [attemptLock, hc]
  · intro k t e h
    by_cases hc : e.status = "downloaded"
    · simp [lock_call, hc] at h
    · simp [lock_call, hc]

/-- Witness for C1: five concurrent sentinel-field claims on one
`'pending'` record (the scenario of `test_concurrent_lock` in
`src/scripts/test_vault_locking.py`) yield exactly one success, and so
does a pair of concurrent status-CAS claims on a `'downloaded'`
record. -/
theorem claim_mutual_exclusion_witness :
    (runSentinelAttempts
        [("vault_lock:a", 1), ("vault_lock:b", 2), ("vault_lock:c", 3),
         ("vault_lock:d", 4), ("vault_lock:e", 5)]
        ⟨"call-1", "pending", 0, none, none, none, none, none, none, none, 0⟩).1.countP
      (·.isSome) = 1
    ∧ (runStatusAttempts [(0, 1), (0, 2)]
        ⟨"call-2", "downloaded", 0, none, none, none, none, none, none, none, 0⟩).1.countP
      (·.isSome) = 1 := by
  have h := claim_mutual_exclusion
    [("vault_lock:a", 1), ("vault_lock:b", 2), ("vault_lock:c", 3),
     ("vault_lock:d", 4), ("vault_lock:e", 5)]
    [(0, 1), (0, 2)]
    ⟨"call-1", "pending", 0, none, none, none, none, none, none, none, 0⟩
    ⟨"call-2", "downloaded", 0, none, none, none, none, none, none, none, 0⟩
    rfl rfl (by decide) rfl (by decide)
  exact ⟨h.1.1, h.2.1.1⟩

/-! ## C2: retry ceiling of the transcription lane -/

/-- C2.  For a call claimed by the transcription lane (claimable:
`status = 'downloaded'`, `retry_count = 0`, `max_attempts = 3`):
three transient failures end in `'failed'` with the truncated error
recorded permanently; after each of the first two (non-final) failures
the call is back in the pre-claim state `'downloaded'` with the error
recorded (immediately eligible again); and failing at most twice and
then succeeding ends in `'transcribed'`, the record never having been
`'failed'` at any point of that path. -/
theorem retry_ceiling
    (c : CallRow) (h0 : c.status = "downloaded") (hr : c.retry_count = 0)
    (e1 e2 e3 : String) (t1 t2 t3 : Nat)
    (txt : String) (segs : List DiarSeg) (ts : Nat) :
    ((runRounds [(.failure e1, t1), (.failure e2, t2), (.failure e3, t3)] c).status
        = "failed"
      ∧ (runRounds [(.failure e1, t1), (.failure e2, t2), (.failure e3, t3)] c).processing_error
        = some (errTrunc e3))
    ∧ ((processRound (.failure e1) t1 c).status = "downloaded"
      ∧ (processRound (.failure e1) t1 c).processing_error = some (errTrunc e1))
    ∧ ((processRound (.failure e2) t2 (processRound (.failure e1) t1 c)).status
        = "downloaded"
      ∧ (processRound (.failure e2) t2 (processRound (.failure e1) t1 c)).processing_error
        = some (errTrunc e2))
    ∧ (processRound (.success txt segs) ts c).status = "transcribed"
    ∧ (processRound (.success txt segs) ts
        (processRound (.failure e1) t1 c)).status = "transcribed"
    ∧ (processRound (.success txt segs) ts
        (processRound (.failure e2) t2 (processRound (.failure e1) t1 c))).status
        = "transcribed" := by
  obtain ⟨id, st, rc, sp, pe, tt, tsg, qf, qv, jm, ua⟩ := c
  simp only at h0 hr
  subst h0 hr
  simp [runRounds, processRound, lock_call, mark_failed, save_transcription]

/-- Witness for C2 at a concrete record and concrete errors. -/
theorem retry_ceiling_witness :
    (runRounds [(.failure "boom1", 1), (.failure "boom2", 2), (.failure "boom3", 3)]
        ⟨"call-3", "downloaded", 0, some "p", none, none, none, none, none, none, 0⟩).status
      = "failed"
    ∧ (processRound (.success "hi there" []) 9
        ⟨"call-3", "downloaded", 0, some "p", none, none, none, none, none, none, 0⟩).status
      = "transcribed" := by
  have h := retry_ceiling
    ⟨"call-3", "downloaded", 0, some "p", none, none, none, none, none, none, 0⟩
    rfl rfl "boom1" "boom2" "boom3" 1 2 3 "hi there" [] 9
  exact ⟨h.1.1, h.2.2.2.1⟩

/-! ## Circuit breaker (`src/workers/core/circuit_breaker.py`) -/

/-- The three circuit states of `CircuitState` (the Python enum); `opened`
embeds `OPEN` (a Lean keyword). -/
inductive CBState where
  | closed
  | opened
  | halfOpen
  deriving DecidableEq, Repr

/-- Constructor arguments of `CircuitBreaker.__init__`. -/
structure CBConfig where
  failure_threshold : Nat
  recovery_timeout : Nat
  success_threshold : Nat
  deriving DecidableEq, Repr

/-- The `CircuitStats` dataclass. -/
structure CircuitStats where
  failures : Nat
  successes : Nat
  last_failure_time : Nat
  last_success_time : Nat
  state : CBState
  open_until : Nat
  deriving DecidableEq, Repr

/-- The dataclass defaults of `CircuitStats` (a freshly constructed
breaker). -/
def CircuitStats.fresh : CircuitStats :=
  { failures := 0, successes := 0, last_failure_time := 0,
    last_success_time := 0, state := .closed, open_until := 0 }

/-- `CircuitBreaker._get_state_unlocked`: reading the state while Open
with `open_until` elapsed transitions to Half-Open and zeroes the success
counter. -/
def getStateUnlocked (now : Nat) (s : CircuitStats) : CircuitStats :=
  if s.state = .opened ∧ s.open_until ≤ now then
    { s with state := .halfOpen, successes := 0 }
  else s

/-- `CircuitBreaker._open_circuit`: record the "open until" instant and
zero the success counter. -/
def openCircuit (cfg : CBConfig) (now : Nat) (s : CircuitStats) : CircuitStats :=
  { s with state := .opened, open_until := now + cfg.recovery_timeout,
           successes := 0 }

/-- `CircuitBreaker._record_success`. -/
def recordSuccess (cfg : CBConfig) (now : Nat) (s : CircuitStats) : CircuitStats :=
  let s := { s with successes := s.successes + 1, last_success_time := now }
  if s.state = .halfOpen ∧ cfg.success_threshold ≤ s.successes then
    { s with state := .closed, failures := 0 }
  else s

/-- `CircuitBreaker._record_failure`. -/
def recordFailure (cfg : CBConfig) (now : Nat) (s : CircuitStats) : CircuitStats :=
  let s := { s with failures := s.failures + 1, last_failure_time := now }
  match s.state with
  | .halfOpen => openCircuit cfg now s
  | .closed =>
    if cfg.failure_threshold ≤ s.failures then openCircuit cfg now s else s
  | .opened => s

/-- Result of one `CircuitBreaker.call`: the typed `CircuitOpenError`
rejection (carrying `open_until`, from which the remaining wait is
computed), a returned value, or the wrapped function's exception
re-raised. -/
inductive CBResult where
  | rejected (openUntil : Nat)
  | returned
  | raised
  deriving DecidableEq, Repr

/-- `CircuitBreaker.call`: check the state (at instant `tCheck`); if Open,
raise `CircuitOpenError` without invoking the wrapped function; otherwise
invoke it (its success or failure is the external input `succeeds`) and
record the outcome (at instant `tRec`).  The middle component reports
whether the wrapped function was invoked. -/
def cbCall (cfg : CBConfig) (s : CircuitStats) (tCheck tRec : Nat)
    (succeeds : Bool) : CBResult × Bool × CircuitStats :=
  let s1 := getStateUnlocked tCheck s
  if s1.state = .opened then (.rejected s1.open_until, false, s1)
  else if succeeds then (.returned, true, recordSuccess cfg tRec s1)
  else (.raised, true, recordFailure cfg tRec s1)

/-- A run of consecutive failing calls (each with its check/record
instants). -/
def cbFailRun (cfg : CBConfig) : List (Nat × Nat) → CircuitStats → CircuitStats
  | [], s => s
  | (t1, t2) :: rest, s => cbFailRun cfg rest (cbCall cfg s t1 t2 false).2.2

/-- A run of consecutive successful calls. -/
def cbSuccessRun (cfg : CBConfig) : List (Nat × Nat) → CircuitStats → CircuitStats
  | [], s => s
  | (t1, t2) :: rest, s => cbSuccessRun cfg rest (cbCall cfg s t1 t2 true).2.2

/-- One failing call while Closed: count the failure; open the circuit
when the counter reaches the threshold. -/
theorem cbCall_closed_fail (cfg : CBConfig) (t1 t2 f su lf ls ou : Nat) :
    (cbCall cfg ⟨f, su, lf, ls, .closed, ou⟩ t1 t2 false).2.2 =
      if cfg.failure_threshold ≤ f + 1 then
        ⟨f + 1, 0, t2, ls, .opened, t2 + cfg.recovery_timeout⟩
      else ⟨f + 1, su, t2, ls, .closed, ou⟩ := by
  by_cases h : cfg.failure_threshold ≤ f + 1 <;>
    simp [cbCall, getStateUnlocked, recordFailure, openCircuit, h]

/-- One successful call while Half-Open: count the success; close the
circuit (resetting the failure counter) when the counter reaches the
success threshold. -/
theorem cbCall_halfOpen_success (cfg : CBConfig) (t1 t2 f su lf ls ou : Nat) :
    (cbCall cfg ⟨f, su, lf, ls, .halfOpen, ou⟩ t1 t2 true).2.2 =
      if cfg.success_threshold ≤ su + 1 then
        ⟨0, su + 1, lf, t2, .closed, ou⟩
      else ⟨f, su + 1, lf, t2, .halfOpen, ou⟩ := by
  by_cases h : cfg.success_threshold ≤ su + 1 <;>
    simp [cbCall, getStateUnlocked, recordSuccess, h]

/-- Consecutive failures while Closed: as long as the counter stays below
the threshold the circuit stays Closed and counts; the failure that
reaches the threshold opens it. -/
theorem cbFailRun_closed (cfg : CBConfig) (steps : List (Nat × Nat)) :
    ∀ f su lf ls ou : Nat,
    f + steps.length = cfg.failure_threshold → steps ≠ [] →
    (cbFailRun cfg steps ⟨f, su, lf, ls, .closed, ou⟩).state = .opened := by
  induction steps with
  | nil => intro f su lf ls ou _ hne; exact absurd rfl hne
  | cons a rest ih =>
    obtain ⟨t1, t2⟩ := a
    intro f su lf ls ou hcount _
    rw [List.length_cons] at hcount
    show (cbFailRun cfg rest _).state = .opened
    rw [cbCall_closed_fail]
    rcases Nat.lt_or_ge (f + 1) cfg.failure_threshold with hlt | hge
    · rw [if_neg (Nat.not_le.mpr hlt)]
      have hrest : rest ≠ [] := by rintro rfl; simp at hcount; omega
      exact ih (f + 1) su t2 ls ou (by omega) hrest
    · rw [if_pos hge]
      have hrestNil : rest = [] := by
        rcases rest with - | ⟨b, r⟩
        · rfl
        · exfalso; rw [List.length_cons] at hcount; omega
      subst hrestNil
      rfl

/-- Consecutive successes while Half-Open: below the success threshold
the circuit stays Half-Open and counts; the success that reaches the
threshold closes it and resets the failure counter. -/
theorem cbSuccessRun_halfOpen (cfg : CBConfig) (steps : List (Nat × Nat)) :
    ∀ f su lf ls ou : Nat,
    su + steps.length = cfg.success_threshold → steps ≠ [] →
    (cbSuccessRun cfg steps ⟨f, su, lf, ls, .halfOpen, ou⟩).state = .closed
      ∧ (cbSuccessRun cfg steps ⟨f, su, lf, ls, .halfOpen, ou⟩).failures = 0 := by
  induction steps with
  | nil => intro f su lf ls ou _ hne; exact absurd rfl hne
  | cons a rest ih =>
    obtain ⟨t1, t2⟩ := a
    intro f su lf ls ou hcount _
    rw [List.length_cons] at hcount
    show (cbSuccessRun cfg rest _).state = .closed
      ∧ (cbSuccessRun cfg rest _).failures = 0
    rw [cbCall_halfOpen_success]
    rcases Nat.lt_or_ge (su + 1) cfg.success_threshold with hlt | hge
    · rw [if_neg (Nat.not_le.mpr hlt)]
      have hrest : rest ≠ [] := by rintro rfl; simp at hcount; omega
      exact ih f (su + 1) lf t2 ou (by omega) hrest
    · rw [if_pos hge]
      have hrestNil : rest = [] := by
        rcases rest with - | ⟨b, r⟩
        · rfl
        · exfalso; rw [List.length_cons] at hcount; omega
      subst hrestNil
      exact ⟨rfl, rfl⟩

/-- C3.  The circuit breaker state machine: (1) from a fresh breaker,
`failure_threshold` consecutive failures while Closed leave the state
Open; (2) while Open and before `open_until`, every call is rejected with
the typed `CircuitOpenError` (carrying `open_until`), the wrapped
function is not invoked, and the stats are untouched; (3) once
`recovery_timeout` has elapsed (`open_until ≤ tCheck`), the next call is
allowed through, running in Half-Open with the success counter freshly
zeroed; (4) `success_threshold` consecutive successes in Half-Open leave
the state Closed with the failure counter reset to 0 (the success counter
is re-zeroed at each entry into Half-Open); (5) any failure in Half-Open
immediately reopens the circuit. -/
theorem circuit_breaker_transitions (cfg : CBConfig)
    (hf : 1 ≤ cfg.failure_threshold) (hs : 1 ≤ cfg.success_threshold)
    (failSteps succSteps : List (Nat × Nat))
    (hflen : failSteps.length = cfg.failure_threshold)
    (hslen : succSteps.length = cfg.success_threshold) :
    (cbFailRun cfg failSteps CircuitStats.fresh).state = .opened
    ∧ (∀ (s : CircuitStats) (t1 t2 : Nat) (b : Bool),
        s.state = .opened → t1 < s.open_until →
        cbCall cfg s t1 t2 b = (.rejected s.open_until, false, s))
    ∧ (∀ (s : CircuitStats) (t1 t2 : Nat) (b : Bool),
        s.state = .opened → s.open_until ≤ t1 →
        (cbCall cfg s t1 t2 b).2.1 = true
          ∧ (getStateUnlocked t1 s).state = .halfOpen
          ∧ (getStateUnlocked t1 s).successes = 0)
    ∧ (∀ s : CircuitStats, s.state = .halfOpen → s.successes = 0 →
        (cbSuccessRun cfg succSteps s).state = .closed
          ∧ (cbSuccessRun cfg succSteps s).failures = 0)
    ∧ (∀ (s : CircuitStats) (t1 t2 : Nat), s.state = .halfOpen →
        ((cbCall cfg s t1 t2 false).2.2).state = .opened) := by
  refine ⟨?_, ?_, ?_, ?_, ?_⟩
  · apply cbFailRun_closed cfg failSteps 0 0 0 0 0
    · simpa using hflen
    · rintro rfl
      rw [List.length_nil] at hflen
      omega
  · intro s t1 t2 b hst hlt
    obtain ⟨f, su, lf, ls, st, ou⟩ := s
    simp only at hst hlt
    subst hst
    have hcond : ¬(ou ≤ t1) := by omega
    rcases b with - | - <;> simp [cbCall, getStateUnlocked, hcond]
  · intro s t1 t2 b hst hle
    obtain ⟨f, su, lf, ls, st, ou⟩ := s
    simp only at hst hle
    subst hst
    rcases b with - | - <;>
      simp [cbCall, getStateUnlocked, hle, recordSuccess, recordFailure,
        openCircuit]
  · intro s hst hsucc
    obtain ⟨f, su, lf, ls, st, ou⟩ := s
    simp only at hst hsucc
    subst hst hsucc
    apply cbSuccessRun_halfOpen cfg succSteps f 0 lf ls ou
    · simpa using hslen
    · rintro rfl
      rw [List.length_nil] at hslen
      omega
  · intro s t1 t2 hst
    obtain ⟨f, su, lf, ls, st, ou⟩ := s
    simp only at hst
    subst hst
    simp [cbCall, getStateUnlocked, recordFailure, openCircuit]

/-- Witness for C3 with the defaults of `CircuitBreaker.__init__`
(`failure_threshold = 5`, `recovery_timeout = 60`,
`success_threshold = 2`): five consecutive failures open a fresh breaker,
and a call at an instant before `open_until` is rejected without invoking
the wrapped function. -/
theorem circuit_breaker_transitions_witness :
    (cbFailRun ⟨5, 60, 2⟩ [(0, 1), (2, 3), (4, 5), (6, 7), (8, 9)]
      CircuitStats.fresh).state = .opened
    ∧ cbCall ⟨5, 60, 2⟩
        { failures := 5, successes := 0, last_failure_time := 9,
          last_success_time := 0, state := .opened, open_until := 69 }
        10 11 true
      = (.rejected 69, false,
          { failures := 5, successes := 0, last_failure_time := 9,
            last_success_time := 0, state := .opened, open_until := 69 }) := by
  have h := circuit_breaker_transitions ⟨5, 60, 2⟩ (by decide) (by decide)
    [(0, 1), (2, 3), (4, 5), (6, 7), (8, 9)] [(0, 1), (2, 3)] rfl rfl
  exact ⟨h.1, h.2.1 _ 10 11 true rfl (by decide)⟩

/-! ## Backfill chunker (`src/workers/ingest/worker.py:run_backfill`)

Timestamps are integers on the timeline (the `datetime` axis); the chunk
size `delta` embeds `timedelta(hours=chunk_hours)`.  The source loop

```python
current_start = start_time
while current_start < end_time:
    current_end = min(current_start + chunk_delta, end_time)
    chunks.append((current_start, current_end))
    current_start = current_end
```

does not terminate for a non-positive chunk size, so totality requires
the `0 < delta` guard; the claim only concerns positive chunk sizes. -/

/-- The chunk-building loop of `run_backfill` (lines 834-839). -/
def buildChunks (delta : Int) (s e : Int) : List (Int × Int) :=
  if h : s < e ∧ 0 < delta then
    (s, min (s + delta) e) :: buildChunks delta (min (s + delta) e) e
  else []
termination_by (e - s).toNat
decreasing_by
  rcases le_total (s + delta) e with hle | hle
  · rw [min_eq_left hle]; omega
  · rw [min_eq_right hle]; omega

/-- `run_backfill`'s chunk schedule: partition `[start, stop)` and, when
`lifo` (the default), reverse the partition list to process newest
first (lines 841-843). -/
def runBackfillChunks (start stop delta : Int) (lifo : Bool) :
    List (Int × Int) :=
  let chunks := buildChunks delta start stop
  if lifo then chunks.reverse else chunks

/-- Every generated window lies inside `[s, e)`, starts no earlier than
`s`, and is non-empty. -/
theorem buildChunks_mem_bounds (delta : Int) :
    ∀ (s e : Int), ∀ c ∈ buildChunks delta s e,
      s ≤ c.1 ∧ c.1 < c.2 ∧ c.2 ≤ e := by
  suffices H : ∀ (n : Nat) (s e : Int), (e - s).toNat = n →
      ∀ c ∈ buildChunks delta s e, s ≤ c.1 ∧ c.1 < c.2 ∧ c.2 ≤ e by
    exact fun s e => H _ s e rfl
  intro n
  induction n using Nat.strong_induction_on with
  | _ n ih =>
    intro s e hn c hc
    rw [buildChunks] at hc
    split at hc
    · next h =>
      obtain ⟨hse, hdp⟩ := h
      rw [List.mem_cons] at hc
      have hm1 : s < min (s + delta) e := lt_min (by omega) hse
      have hm2 : min (s + delta) e ≤ e := min_le_right _ _
      rcases hc with rfl | hc
      · exact ⟨le_refl _, hm1, hm2⟩
      · have := ih ((e - min (s + delta) e).toNat) (by omega)
          (min (s + delta) e) e rfl c hc
        exact ⟨by omega, this.2.1, this.2.2⟩
    · exact absurd hc (List.not_mem_nil c)

/-- In generation (FIFO) order the windows are consecutive and
non-overlapping: every window ends no later than any later window
starts. -/
theorem buildChunks_pairwise (delta : Int) :
    ∀ (s e : Int),
      List.Pairwise (fun c c' => c.2 ≤ c'.1) (buildChunks delta s e) := by
  suffices H : ∀ (n : Nat) (s e : Int), (e - s).toNat = n →
      List.Pairwise (fun c c' => c.2 ≤ c'.1) (buildChunks delta s e) by
    exact fun s e => H _ s e rfl
  intro n
  induction n using Nat.strong_induction_on with
  | _ n ih =>
    intro s e hn
    rw [buildChunks]
    split
    · next h =>
      obtain ⟨hse, hdp⟩ := h
      have hm1 : s < min (s + delta) e := lt_min (by omega) hse
      refine List.Pairwise.cons ?_ ?_
      · intro c hc
        exact (buildChunks_mem_bounds delta _ e c hc).1
      · exact ih ((e - min (s + delta) e).toNat) (by omega) _ e rfl
    · exact List.Pairwise.nil

/-- The generated windows exactly cover `[s, e)`: a time instant lies in
some window iff it lies in the range. -/
theorem buildChunks_cover (delta : Int) (hd : 0 < delta) :
    ∀ (s e t : Int),
      (∃ c ∈ buildChunks delta s e, c.1 ≤ t ∧ t < c.2) ↔ (s ≤ t ∧ t < e) := by
  suffices H : ∀ (n : Nat) (s e t : Int), (e - s).toNat = n →
      ((∃ c ∈ buildChunks delta s e, c.1 ≤ t ∧ t < c.2) ↔ (s ≤ t ∧ t < e)) by
    exact fun s e t => H _ s e t rfl
  intro n
  induction n using Nat.strong_induction_on with
  | _ n ih =>
    intro s e t hn
    rw [buildChunks]
    split
    · next h =>
      obtain ⟨hse, hdp⟩ := h
      have hm1 : s < min (s + delta) e := lt_min (by omega) hse
      have hm2 : min (s + delta) e ≤ e := min_le_right _ _
      have htail := ih ((e - min (s + delta) e).toNat) (by omega)
        (min (s + delta) e) e t rfl
      simp only [List.mem_cons]
      constructor
      · rintro ⟨c, rfl | hc, hct⟩
        · exact ⟨hct.1, by omega⟩
        · have := htail.mp ⟨c, hc, hct⟩
          exact ⟨by omega, this.2⟩
      · rintro ⟨hst, hte⟩
        by_cases hcase : t < min (s + delta) e
        · exact ⟨(s, min (s + delta) e), Or.inl rfl, hst, hcase⟩
        · obtain ⟨c, hc, hct⟩ := htail.mpr ⟨by omega, hte⟩
          exact ⟨c, Or.inr hc, hct⟩
    · next h =>
      constructor
      · rintro ⟨c, hc, -⟩
        exact absurd hc (List.not_mem_nil c)
      · rintro ⟨hst, hte⟩
        exact absurd ⟨by omega, hd⟩ h

/-- C4.  For every time range with `start < stop` and every positive
chunk size, the backfill chunker partitions `[start, stop)` into
consecutive, non-overlapping windows: (coverage) an instant lies in some
generated window iff it lies in `[start, stop)`; (no overlaps) no instant
lies in two distinct windows; (no gaps / consecutiveness) in FIFO order
every window ends no later than any later window starts; and choosing
LIFO merely reverses the FIFO partition list — the set of windows, hence
every window boundary, is unchanged. -/
theorem backfill_chunk_coverage (start stop delta : Int)
    (hlt : start < stop) (hd : 0 < delta) (lifo : Bool) :
    (∀ t : Int,
      (∃ c ∈ runBackfillChunks start stop delta lifo, c.1 ≤ t ∧ t < c.2)
        ↔ (start ≤ t ∧ t < stop))
    ∧ (∀ (t : Int) (c c' : Int × Int),
        c ∈ runBackfillChunks start stop delta lifo →
        c' ∈ runBackfillChunks start stop delta lifo →
        c.1 ≤ t → t < c.2 → c'.1 ≤ t → t < c'.2 → c = c')
    ∧ List.Pairwise (fun c c' => c.2 ≤ c'.1)
        (runBackfillChunks start stop delta false)
    ∧ runBackfillChunks start stop delta true
        = (runBackfillChunks start stop delta false).reverse
    ∧ (∀ c : Int × Int, c ∈ runBackfillChunks start stop delta true
        ↔ c ∈ runBackfillChunks start stop delta false) := by
  have hmemlifo : ∀ c : Int × Int,
      c ∈ runBackfillChunks start stop delta lifo
        ↔ c ∈ buildChunks delta start stop := by
    intro c
    unfold runBackfillChunks
    rcases lifo with - | - <;> simp
  refine ⟨?_, ?_, ?_, ?_, ?_⟩
  · intro t
    rw [← buildChunks_cover delta hd start stop t]
    constructor
    · rintro ⟨c, hc, hct⟩
      exact ⟨c, (hmemlifo c).mp hc, hct⟩
    · rintro ⟨c, hc, hct⟩
      exact ⟨c, (hmemlifo c).mpr hc, hct⟩
  · intro t c c' hc hc' hc1 hc2 hc'1 hc'2
    rw [hmemlifo] at hc hc'
    by_contra hne
    have hsym := (buildChunks_pairwise delta start stop).imp
      (fun {a b} (hab : a.2 ≤ b.1) => Or.inl hab :
        ∀ {a b : Int × Int}, a.2 ≤ b.1 → (a.2 ≤ b.1 ∨ b.2 ≤ a.1))
    have := List.Pairwise.forall
      (fun a b hab => hab.elim Or.inr Or.inl) hsym hc hc' hne
    omega
  · unfold runBackfillChunks
    simpa using buildChunks_pairwise delta start stop
  · unfold runBackfillChunks
    simp
  · intro c
    unfold runBackfillChunks
    simp

/-- Witness for C4: a 50-hour range chunked at 24 hours, LIFO; coverage
instantiated at t = 30 and LIFO shown to be the reversed FIFO
partition. -/
theorem backfill_chunk_coverage_witness :
    ((0 : Int) < 50 ∧ (0 : Int) < 24)
    ∧ ((∃ c ∈ runBackfillChunks 0 50 24 true, c.1 ≤ 30 ∧ (30 : Int) < c.2)
        ↔ ((0 : Int) ≤ 30 ∧ (30 : Int) < 50))
    ∧ runBackfillChunks 0 50 24 true
        = (runBackfillChunks 0 50 24 false).reverse := by
  have h := backfill_chunk_coverage 0 50 24 (by decide) (by decide) true
  exact ⟨⟨by decide, by decide⟩, h.1 30, h.2.2.2.1⟩

/-! ## Judge lane (`src/workers/judge/worker.py`) -/

/-- Configuration constants of the judge worker (lines 49-55). -/
def FLAG_THRESHOLD : Int := 70

/-- `MIN_TRANSCRIPT_LENGTH`: transcripts shorter than this are skipped. -/
def MIN_TRANSCRIPT_LENGTH : Nat := 50

/-- `QA_VERSION` written with every judge result. -/
def QA_VERSION : String := "v2.1-turbo"

/-- `MODEL_NAME` of the analysis collaborator. -/
def MODEL_NAME : String := "gpt-4o-mini"

/-- The `QAAnalysis` pydantic model: the structured record returned by
the quality-analysis collaborator. -/
structure QAAnalysis where
  score : Int
  flagged : Bool
  summary : String
  issues : List String
  pii_detected : Bool
  hostility_detected : Bool
  sales_success : Bool
  customer_sentiment : String
  compliance_risk : String
  deriving DecidableEq, Repr

/-- `JudgeRepository.save_qa_results` (lines 319-363): the final status is
`'flagged'` iff `analysis.flagged or analysis.score < FLAG_THRESHOLD`,
else `'safe'`; the full analysis payload is stored in `qa_flags`. -/
def save_qa_results (a : QAAnalysis) (now : Nat) (c : CallRow) : CallRow :=
  let newStatus := if a.flagged ∨ a.score < FLAG_THRESHOLD then "flagged" else "safe"
  { c with qa_flags := some (.analysisRecord a.score a.flagged a.summary
             a.issues a.pii_detected a.hostility_detected a.sales_success
             a.customer_sentiment a.compliance_risk now),
           qa_version := some QA_VERSION,
           judge_model := some MODEL_NAME,
           status := newStatus,
           processing_error := none,
           updated_at := now }

/-- `JudgeRepository.mark_skipped` (lines 365-392): record the skip in
`qa_flags` and set the status to `'safe'` (short transcripts are not
flagged). -/
def mark_skipped (reason : String) (transcriptLength : Nat) (now : Nat)
    (c : CallRow) : CallRow :=
  { c with qa_flags := some (.skipRecord reason transcriptLength now),
           qa_version := some QA_VERSION,
           judge_model := some "skipped",
           status := "safe",
           updated_at := now }

/-- `JudgeRepository.mark_failed` (lines 394-412). -/
def judge_mark_failed (error : String) (now : Nat) (c : CallRow) : CallRow :=
  { c with status := "failed",
           processing_error := some (error.take 500),
           qa_flags := some (.errorRecord (error.take 200) now),
           updated_at := now }

/-- Result of `process_single_call`: the row as updated, the returned
triple `(call_id, success, status_or_error)`, and whether the analysis
model was invoked. -/
structure JudgeStepResult where
  row : CallRow
  result : String × Bool × String
  invokedModel : Bool
  deriving DecidableEq, Repr

/-- Python's `str.strip()`: drop leading and trailing whitespace
characters. -/
def pyStrip (s : String) : String :=
  String.mk
    (((s.data.dropWhile Char.isWhitespace).reverse.dropWhile
        Char.isWhitespace).reverse)

/-- `process_single_call` (lines 517-589): read the transcript
(`call.get("transcript_text") or ""`); if its stripped length is below
`MIN_TRANSCRIPT_LENGTH`, mark the call skipped (recording the raw
transcript length) and report success without invoking the analysis
model; otherwise invoke the model — whose outcome, success or the error
string built from the caught exception, is the external input
`analysis` — and save results or mark the call failed accordingly. -/
def process_single_call (c : CallRow) (analysis : Except String QAAnalysis)
    (now : Nat) : JudgeStepResult :=
  let transcript := c.transcript_text.getD ""
  if (pyStrip transcript).length < MIN_TRANSCRIPT_LENGTH then
    { row := mark_skipped "transcript_too_short" transcript.length now c,
      result := (c.id, true, "skipped"),
      invokedModel := false }
  else
    match analysis with
    | .ok a =>
      let status := if a.flagged ∨ a.score < FLAG_THRESHOLD then "flagged" else "safe"
      { row := save_qa_results a now c,
        result := (c.id, true, status),
        invokedModel := true }
    | .error e =>
      { row := judge_mark_failed e now c,
        result := (c.id, false, e),
        invokedModel := true }

/-- C8.  For every call whose quality analysis completes, the disposition
written by `save_qa_results` is `'flagged'` exactly when the analysis has
`flagged` true or a score below the threshold 70, and `'safe'` otherwise
— independent of every other field the analysis collaborator returns and
of the rest of the row. -/
theorem judge_disposition_rule (a : QAAnalysis) (c : CallRow) (now : Nat) :
    ((save_qa_results a now c).status = "flagged"
      ↔ (a.flagged = true ∨ a.score < FLAG_THRESHOLD))
    ∧ ((save_qa_results a now c).status = "safe"
      ↔ ¬(a.flagged = true ∨ a.score < FLAG_THRESHOLD)) := by
  by_cases h : a.flagged = true ∨ a.score < FLAG_THRESHOLD <;>
    simp [save_qa_results, h]

/-- C9.  For every claimed call whose transcript, stripped of surrounding
whitespace, is shorter than 50 characters, the judge lane does not invoke
the analysis model; it sets the status to `'safe'` with a `qa_flags`
payload recording the skip, the reason `"transcript_too_short"` and the
(raw) transcript length; and it reports the call as successfully
processed (`(call_id, True, "skipped")`). -/
theorem judge_short_transcript_skip (c : CallRow)
    (analysis : Except String QAAnalysis) (now : Nat)
    (h : (pyStrip (c.transcript_text.getD "")).length < MIN_TRANSCRIPT_LENGTH) :
    (process_single_call c analysis now).invokedModel = false
    ∧ (process_single_call c analysis now).row.status = "safe"
    ∧ (process_single_call c analysis now).row.qa_flags
        = some (.skipRecord "transcript_too_short"
            (c.transcript_text.getD "").length now)
    ∧ (process_single_call c analysis now).result = (c.id, true, "skipped") := by
  simp [process_single_call, mark_skipped, h]

/-- Witness for C9: a 19-character transcript is skipped and the call
reported safe without invoking the model. -/
theorem judge_short_transcript_skip_witness :
    (process_single_call
      ⟨"call-9", "transcribed", 0, some "p", none, some " too short to judge ",
        none, none, none, none, 0⟩
      (.ok ⟨0, true, "s", [], false, false, false, "neutral", "low"⟩)
      7).invokedModel = false
    ∧ (process_single_call
      ⟨"call-9", "transcribed", 0, some "p", none, some " too short to judge ",
        none, none, none, none, 0⟩
      (.ok ⟨0, true, "s", [], false, false, false, "neutral", "low"⟩)
      7).row.status = "safe" := by
  have h := judge_short_transcript_skip
    ⟨"call-9", "transcribed", 0, some "p", none, some " too short to judge ",
      none, none, none, none, 0⟩
    (.ok ⟨0, true, "s", [], false, false, false, "neutral", "low"⟩)
    7 (by decide)
  exact ⟨h.1, h.2.1⟩

/-! ## Flat-text merge of transcription chunks
(`src/workers/core/models.py:_merge_chunk_transcripts` /
`_remove_overlap`)

Transcripts are modelled at word level: a transcript string is its list
of whitespace-separated words (the source's `text.split()`), each word a
nonempty, whitespace-free string; the source joins parts back with
single spaces (`" ".join`), so the two representations are in
bijection and word counts and word sequences agree. -/

/-- Python's `str.lower()`, character by character. -/
def pyLower (s : String) : String := String.mk (s.data.map Char.toLower)

/-- The comparison of one loop iteration of `_remove_overlap`
(lines 535-541): do the last `l` words of `prevW` equal the first `l`
words of `current`, case-insensitively? -/
def overlapMatch (prevW current : List String) (l : Nat) : Bool :=
  (prevW.drop (prevW.length - l)).map pyLower == (current.take l).map pyLower

/-- The `best_overlap` loop of `_remove_overlap`: scan
`overlap_len = 1 .. min(len(prev_words), len(current_words), max)` in
increasing order, remembering the last (hence largest) matching
length. -/
def bestOverlap (prevW current : List String) (maxOverlapWords : Nat) : Nat :=
  (List.range' 1 (min (min prevW.length current.length) maxOverlapWords)).foldl
    (fun b l => if overlapMatch prevW current l then l else b) 0

/-- `_remove_overlap(prev_text, current_text, max_overlap_words=15)`
(lines 510-548), at word level: take the last `max_overlap_words` words
of the previous chunk, find the longest case-insensitive suffix/prefix
match against the current chunk, and drop the matched prefix from the
current chunk. -/
def removeOverlap (maxOverlapWords : Nat) (prev current : List String) :
    List String :=
  if prev = [] ∨ current = [] then current
  else
    let prevW := prev.drop (prev.length - maxOverlapWords)
    if prevW = [] ∨ current = [] then current
    else
      let best := bestOverlap prevW current maxOverlapWords
      if 0 < best then current.drop best else current

/-- The chunk loop of `_merge_chunk_transcripts` (lines 490-505): skip
empty chunks; use chunk 0 as-is; for each later chunk remove the overlap
against the last accumulated part, keeping it only if nonempty.  `i` is
the `enumerate` index. -/
def mergeLoop : Nat → List (List String) → List (List String) →
    List (List String)
  | _, parts, [] => parts
  | i, parts, t :: rest =>
    if t = [] then mergeLoop (i + 1) parts rest
    else if i = 0 then mergeLoop (i + 1) (parts ++ [t]) rest
    else
      let t' := removeOverlap 15 (parts.getLastD []) t
      if t' = [] then mergeLoop (i + 1) parts rest
      else mergeLoop (i + 1) (parts ++ [t']) rest

/-- `_merge_chunk_transcripts` (lines 471-507), at word level; the final
`" ".join(merged_parts)` is the concatenation of the parts' word
lists. -/
def mergeChunkTranscripts (transcripts : List (List String)) : List String :=
  if transcripts.length ≤ 1 then transcripts.headD []
  else (mergeLoop 0 [] transcripts).flatten

/-- The ascending best-candidate fold keeps the largest index satisfying
the predicate (and 0 when none does). -/
theorem foldl_best_spec (p : Nat → Bool) (n : Nat) :
    ((List.range' 1 n).foldl (fun b l => if p l then l else b) 0 = 0
      ∨ (1 ≤ (List.range' 1 n).foldl (fun b l => if p l then l else b) 0
          ∧ (List.range' 1 n).foldl (fun b l => if p l then l else b) 0 ≤ n
          ∧ p ((List.range' 1 n).foldl (fun b l => if p l then l else b) 0) = true))
    ∧ (∀ l, 1 ≤ l → l ≤ n → p l = true →
        l ≤ (List.range' 1 n).foldl (fun b l => if p l then l else b) 0) := by
  induction n with
  | zero =>
    refine ⟨Or.inl rfl, ?_⟩
    intro l h1 h2 _
    omega
  | succ n ih =>
    have hconcat : List.range' 1 (n + 1) = List.range' 1 n ++ [1 + n] := by
      have h := @List.range'_concat 1 1 n
      simpa using h
    rw [hconcat, List.foldl_append]
    simp only [List.foldl_cons, List.foldl_nil]
    obtain ⟨ih1, ih2⟩ := ih
    by_cases hp : p (1 + n) = true
    · rw [if_pos hp]
      refine ⟨Or.inr ⟨by omega, by omega, hp⟩, ?_⟩
      intro l h1 h2 _
      omega
    · rw [if_neg hp]
      refine ⟨?_, ?_⟩
      · rcases ih1 with h | ⟨ha, hb, hc⟩
        · exact Or.inl h
        · exact Or.inr ⟨ha, by omega, hc⟩
      · intro l h1 h2 hl
        rcases Nat.lt_or_ge l (n + 1) with hlt | hge
        · exact ih2 l h1 (by omega) hl
        · exfalso
          have hleq : l = 1 + n := by omega
          rw [hleq] at hl
          exact hp hl

/-- C7.  For every pair of adjacent chunk transcripts, the flat-text
merge drops, from the next chunk, exactly the prefix of length
`bestOverlap` — a length at which the suffix of the previous chunk's
trailing 15 words case-insensitively equals the next chunk's leading
words (when positive), and the longest such length within the 15-word
search window; in particular, merging a chunk ending in
`the quick brown` with a chunk starting `quick brown fox` yields
`the quick brown fox`: the junction words `quick brown` appear exactly
once. -/
theorem overlap_dedup_correct (prev current : List String)
    (hp : prev ≠ []) (hc : current ≠ []) :
    (removeOverlap 15 prev current
      = current.drop (bestOverlap (prev.drop (prev.length - 15)) current 15))
    ∧ (0 < bestOverlap (prev.drop (prev.length - 15)) current 15 →
        overlapMatch (prev.drop (prev.length - 15)) current
          (bestOverlap (prev.drop (prev.length - 15)) current 15) = true)
    ∧ (∀ l, 1 ≤ l →
        l ≤ min (min (prev.drop (prev.length - 15)).length current.length) 15 →
        overlapMatch (prev.drop (prev.length - 15)) current l = true →
        l ≤ bestOverlap (prev.drop (prev.length - 15)) current 15)
    ∧ mergeChunkTranscripts [["the", "quick", "brown"], ["quick", "brown", "fox"]]
        = ["the", "quick", "brown", "fox"] := by
  have hspec := foldl_best_spec
    (overlapMatch (prev.drop (prev.length - 15)) current)
    (min (min (prev.drop (prev.length - 15)).length current.length) 15)
  have hprevW : prev.drop (prev.length - 15) ≠ [] := by
    intro h
    rw [List.drop_eq_nil_iff] at h
    have hlen : 0 < prev.length := List.length_pos.mpr hp
    omega
  refine ⟨?_, ?_, ?_, ?_⟩
  · unfold removeOverlap
    rw [if_neg (by simp [hp, hc]), if_neg (by simp [hprevW, hc])]
    by_cases hb : 0 < bestOverlap (prev.drop (prev.length - 15)) current 15
    · rw [if_pos hb]
    · rw [if_neg hb]
      have : bestOverlap (prev.drop (prev.length - 15)) current 15 = 0 := by
        omega
      rw [this, List.drop_zero]
  · intro hpos
    unfold bestOverlap at hpos ⊢
    rcases hspec.1 with h | ⟨-, -, h⟩
    · omega
    · exact h
  · intro l h1 h2 hl
    exact hspec.2 l h1 h2 hl
  · decide

/-- Witness for C7 at the junction scenario of §8 of the spec. -/
theorem overlap_dedup_correct_witness :
    removeOverlap 15 ["the", "quick", "brown"] ["quick", "brown", "fox"]
      = ["quick", "brown", "fox"].drop
          (bestOverlap (["the", "quick", "brown"].drop (3 - 15))
            ["quick", "brown", "fox"] 15) := by
  have h := overlap_dedup_correct ["the", "quick", "brown"]
    ["quick", "brown", "fox"] (by decide) (by decide)
  exact h.1

/-! ## Rounding

Python's builtin `round` rounds half to even; `round(x, 3)` rounds at the
third decimal. -/

/-- Python's `round(q)`: round half to even. -/
def pyRound (q : ℚ) : ℤ :=
  if q - ⌊q⌋ = 1 / 2 then (if 2 ∣ ⌊q⌋ then ⌊q⌋ else ⌊q⌋ + 1) else round q

/-- Python's `round(q, 3)`. -/
def round3 (q : ℚ) : ℚ := (pyRound (1000 * q) : ℚ) / 1000

theorem pyRound_intCast (n : ℤ) : pyRound (n : ℚ) = n := by
  unfold pyRound
  rw [Int.floor_intCast]
  have h0 : (n : ℚ) - n = 0 := by ring
  rw [h0, if_neg (by norm_num), round_intCast]

theorem pyRound_floor_le (q : ℚ) : ⌊q⌋ ≤ pyRound q := by
  unfold pyRound
  split
  · split
    · exact le_refl _
    · omega
  · rw [round_eq]
    exact Int.floor_mono (by linarith)

theorem pyRound_le_floor_add_one (q : ℚ) : pyRound q ≤ ⌊q⌋ + 1 := by
  unfold pyRound
  split
  · split
    · omega
    · exact le_refl _
  · rw [round_eq]
    have h : ⌊q + 1 / 2⌋ ≤ ⌊q + 1⌋ := Int.floor_mono (by linarith)
    rwa [Int.floor_add_one] at h

theorem pyRound_mono {x y : ℚ} (h : x ≤ y) : pyRound x ≤ pyRound y := by
  rcases lt_or_eq_of_le (Int.floor_mono h) with hf | hf
  · calc pyRound x ≤ ⌊x⌋ + 1 := pyRound_le_floor_add_one x
      _ ≤ ⌊y⌋ := by omega
      _ ≤ pyRound y := pyRound_floor_le y
  · have hfx := Int.floor_le x
    have hfy := Int.floor_le y
    have hlx := Int.lt_floor_add_one x
    have hly := Int.lt_floor_add_one y
    unfold pyRound
    by_cases hx : x - ⌊x⌋ = 1 / 2 <;> by_cases hy : y - ⌊y⌋ = 1 / 2
    · rw [if_pos hx, if_pos hy, hf]
    · -- x is a tie, y is strictly above the half point
      rw [if_pos hx, if_neg hy]
      have hgt : 1 / 2 < y - ⌊y⌋ := by
        rcases lt_or_ge (1 / 2 : ℚ) (y - ⌊y⌋) with hlt | hge
        · exact hlt
        · exfalso
          apply hy
          have hle : 1 / 2 ≤ y - ⌊y⌋ := by
            rw [← hf]
            push_cast at hx ⊢
            linarith
          linarith
      have hry : ⌊y⌋ + 1 ≤ round y := by
        rw [round_eq]
        apply Int.le_floor.mpr
        push_cast
        linarith
      split <;> omega
    · -- y is a tie, x is strictly below the half point
      rw [if_neg hx, if_pos hy]
      have hltx : x - ⌊x⌋ < 1 / 2 := by
        rcases lt_or_ge (x - ⌊x⌋) (1 / 2 : ℚ) with hlt | hge
        · exact hlt
        · exfalso
          apply hx
          have hle : x - ⌊x⌋ ≤ 1 / 2 := by
            rw [hf]
            push_cast at hy ⊢
            linarith
          linarith
      have hrx : round x ≤ ⌊x⌋ := by
        rw [round_eq]
        apply Int.le_of_lt_add_one
        apply Int.floor_lt.mpr
        push_cast
        linarith
      split <;> omega
    · rw [if_neg hx, if_neg hy, round_eq, round_eq]
      exact Int.floor_mono (by linarith)

theorem round3_intCast (n : ℤ) : round3 (n : ℚ) = n := by
  unfold round3
  have h : (1000 : ℚ) * n = ((1000 * n : ℤ) : ℚ) := by push_cast; ring
  rw [h, pyRound_intCast]
  push_cast
  ring

theorem round3_mono {x y : ℚ} (h : x ≤ y) : round3 x ≤ round3 y := by
  unfold round3
  have := pyRound_mono (show 1000 * x ≤ 1000 * y by linarith)
  have hcast : (pyRound (1000 * x) : ℚ) ≤ (pyRound (1000 * y) : ℚ) := by
    exact_mod_cast this
  linarith

/-! ## Speaker-text alignment (`src/workers/core/alignment.py`) -/

/-- Grouping of a character list into maximal non-whitespace runs,
accumulator-style (the accumulator holds the current word reversed). -/
def wordsAux : List Char → List Char → List (List Char)
  | [], acc => if acc = [] then [] else [acc.reverse]
  | c :: rest, acc =>
    if c.isWhitespace then
      if acc = [] then wordsAux rest []
      else acc.reverse :: wordsAux rest []
    else wordsAux rest (c :: acc)

/-- Python's `str.split()` with no separator: split on whitespace runs,
discarding empty pieces. -/
def pySplitWs (t : String) : List String :=
  (wordsAux t.data []).map String.mk

/-- The pure-punctuation test of `_split_into_words` (line 129):
`re.match` of the anchored class `[.,!?;:'"()-]+` — a nonempty word all
of whose characters are in that class. -/
def isPunctOnly (w : String) : Bool :=
  w ≠ "" && w.data.all (fun c =>
    c ∈ ['.', ',', '!', '?', ';', ':', '\'', '"', '(', ')', '-'])

/-- `_split_into_words` (lines 115-131): whitespace split, then drop
empty and pure-punctuation tokens. -/
def splitIntoWords (t : String) : List String :=
  (pySplitWs t).filter (fun w => w ≠ "" && !(isPunctOnly w))

/-- The total speaking time of `align_transcript_with_speakers`
(lines 52-55): `sum(max(0, end - start))`. -/
def totalDuration (segs : List DiarSeg) : ℚ :=
  (segs.map (fun s => max 0 (s.stop - s.start))).sum

/-- An output segment of the alignment: the dict
`{"speaker", "start", "end", "text"}`.  The `text` field is represented
by its word list; the source stores these words joined with single
spaces, and every word is a nonempty whitespace-free string, so the two
representations are in bijection. -/
structure AlignedSeg where
  speaker : String
  start : ℚ
  stop : ℚ
  text : List String
  deriving DecidableEq, Repr

/-- The word-distribution loop of `align_transcript_with_speakers`
(lines 66-92): walk the segments carrying `word_index`; each segment
takes `min(round(duration * words_per_second), remaining)` words.
Returns the aligned segments and the final `word_index`. -/
def distributeWords (ws : List String) (wps : ℚ) :
    List DiarSeg → Nat → List AlignedSeg × Nat
  | [], idx => ([], idx)
  | seg :: rest, idx =>
    let duration := max 0 (seg.stop - seg.start)
    let wordCount :=
      (min (pyRound (duration * wps)) ((ws.length : ℤ) - (idx : ℤ))).toNat
    let segmentWords := (ws.drop idx).take wordCount
    let out : AlignedSeg :=
      ⟨seg.speaker, round3 seg.start, round3 seg.stop, segmentWords⟩
    let r := distributeWords ws wps rest (idx + wordCount)
    (out :: r.1, r.2)

/-- Append the leftover words to the `text` of the last segment
(lines 95-102; `f"{last_text} {remaining}"` is word-list append). -/
def appendToLastText (extra : List String) : List AlignedSeg → List AlignedSeg
  | [] => []
  | [s] => [{ s with text := s.text ++ extra }]
  | s :: rest => s :: appendToLastText extra rest

/-- The leftover-handling step (line 95:
`if word_index < len(words) and aligned_segments:`). -/
def addLeftover (ws : List String) (idx : Nat) (outs : List AlignedSeg) :
    List AlignedSeg :=
  if idx < ws.length ∧ outs ≠ [] then appendToLastText (ws.drop idx) outs
  else outs

/-- The inner loop of `_merge_same_speaker_segments` (lines 150-174):
`cur` is the `current` accumulator; a same-speaker segment extends its
end and concatenates its text, a different speaker flushes it. -/
def mergeSameSpeakerLoop : AlignedSeg → List AlignedSeg → List AlignedSeg
  | cur, [] => [cur]
  | cur, s :: rest =>
    if s.speaker = cur.speaker then
      mergeSameSpeakerLoop { cur with stop := s.stop, text := cur.text ++ s.text } rest
    else cur :: mergeSameSpeakerLoop s rest

/-- `_merge_same_speaker_segments` (lines 134-174). -/
def mergeSameSpeaker : List AlignedSeg → List AlignedSeg
  | [] => []
  | s :: rest => mergeSameSpeakerLoop s rest

/-- Return type of `align_transcript_with_speakers`: either the input
diarization segments returned unchanged (degenerate inputs — note no
`text` field is present) or the aligned segments. -/
inductive AlignResult where
  | original (segs : List DiarSeg)
  | aligned (segs : List AlignedSeg)
  deriving DecidableEq, Repr

/-- `align_transcript_with_speakers` (lines 23-112).  The function
raises no exception: every path returns a value (it is a total Lean
function). -/
def align_transcript_with_speakers (t : String) (segs : List DiarSeg) :
    AlignResult :=
  if t = "" ∨ segs = [] then .original segs
  else
    let ws := splitIntoWords t
    if ws = [] then .original segs
    else
      let td := totalDuration segs
      if td ≤ 0 then .original segs
      else
        let wps := (ws.length : ℚ) / td
        let dist := distributeWords ws wps segs 0
        .aligned (mergeSameSpeaker (addLeftover ws dist.2 dist.1))

/-- All words carried by an alignment result, in order. -/
def outWords : AlignResult → List String
  | .original _ => []
  | .aligned l => (l.map AlignedSeg.text).flatten

/-- Total word count across an alignment result's output segments (a
segment of the degenerate `original` result has no `text` field, hence
zero words). -/
def totalWordCount : AlignResult → Nat
  | .original _ => 0
  | .aligned l => (l.map (fun s => s.text.length)).sum

/-- C10.  If the transcript is empty, or no words survive the
punctuation filter, or the segments' total duration is not positive,
`align_transcript_with_speakers` returns the input diarization segment
list unchanged — in particular with no `text` fields added — and, being
a total function, raises no exception. -/
theorem alignment_degenerate_returns_input (t : String) (segs : List DiarSeg)
    (h : t = "" ∨ splitIntoWords t = [] ∨ totalDuration segs ≤ 0) :
    align_transcript_with_speakers t segs = .original segs := by
  simp only [align_transcript_with_speakers]
  by_cases h1 : t = "" ∨ segs = []
  · rw [if_pos h1]
  · rw [if_neg h1]
    push_neg at h1
    by_cases h2 : splitIntoWords t = []
    · rw [if_pos h2]
    · rw [if_neg h2]
      have h3 : totalDuration segs ≤ 0 := by
        rcases h with h | h | h
        · exact absurd h h1.1
        · exact absurd h h2
        · exact h
      rw [if_pos h3]

/-- Witness for C10: a transcript of pure punctuation filters to no
words and the segment list comes back unchanged. -/
theorem alignment_degenerate_returns_input_witness :
    align_transcript_with_speakers "--- ?!? ..." [⟨0, 5, "SPEAKER_00"⟩]
      = .original [⟨0, 5, "SPEAKER_00"⟩] :=
  alignment_degenerate_returns_input "--- ?!? ..." [⟨0, 5, "SPEAKER_00"⟩]
    (Or.inr (Or.inl (by decide)))

/-- The word-distribution loop never outruns the word list, emits one
output segment per input segment, and the words it hands out are exactly
the slice of the word list between the initial and final
`word_index`. -/
theorem distributeWords_spec (ws : List String) (wps : ℚ) :
    ∀ (segs : List DiarSeg) (idx : Nat), idx ≤ ws.length →
      idx ≤ (distributeWords ws wps segs idx).2
      ∧ (distributeWords ws wps segs idx).2 ≤ ws.length
      ∧ (distributeWords ws wps segs idx).1.length = segs.length
      ∧ ((distributeWords ws wps segs idx).1.map AlignedSeg.text).flatten
          = (ws.drop idx).take ((distributeWords ws wps segs idx).2 - idx) := by
  intro segs
  induction segs with
  | nil =>
    intro idx h
    simpa [distributeWords] using h
  | cons seg rest ih =>
    intro idx hidx
    simp only [distributeWords]
    set W := (min (pyRound (max 0 (seg.stop - seg.start) * wps))
      ((ws.length : ℤ) - (idx : ℤ))).toNat with hWdef
    have hWle : W ≤ ws.length - idx := by
      have hmin := min_le_right
        (pyRound (max 0 (seg.stop - seg.start) * wps))
        ((ws.length : ℤ) - (idx : ℤ))
      omega
    have hnext : idx + W ≤ ws.length := by omega
    obtain ⟨ih1, ih2, ih3, ih4⟩ := ih (idx + W) hnext
    refine ⟨by omega, by omega, by simpa using ih3, ?_⟩
    simp only [List.map_cons, List.flatten_cons]
    rw [ih4]
    have hdd : ws.drop (idx + W) = (ws.drop idx).drop W := by
      rw [List.drop_drop, Nat.add_comm]
    rw [hdd]
    have harith : (distributeWords ws wps rest (idx + W)).2 - idx
        = W + ((distributeWords ws wps rest (idx + W)).2 - (idx + W)) := by
      omega
    rw [harith, List.take_add]

/-- Appending leftover words to the last segment appends them to the
concatenation of all segment word lists. -/
theorem appendToLastText_flatten (extra : List String) :
    ∀ l : List AlignedSeg, l ≠ [] →
      ((appendToLastText extra l).map AlignedSeg.text).flatten
        = (l.map AlignedSeg.text).flatten ++ extra := by
  intro l
  induction l with
  | nil => intro h; exact absurd rfl h
  | cons s rest ih =>
    intro _
    cases rest with
    | nil => simp [appendToLastText]
    | cons s2 r2 =>
      simp only [appendToLastText, List.map_cons, List.flatten_cons]
      rw [ih (by simp), List.map_cons, List.flatten_cons]
      simp [List.append_assoc]

/-- The same-speaker merge concatenates texts, so it preserves the word
sequence. -/
theorem mergeSameSpeakerLoop_flatten :
    ∀ (rest : List AlignedSeg) (cur : AlignedSeg),
      ((mergeSameSpeakerLoop cur rest).map AlignedSeg.text).flatten
        = cur.text ++ (rest.map AlignedSeg.text).flatten := by
  intro rest
  induction rest with
  | nil => intro cur; simp [mergeSameSpeakerLoop]
  | cons s r ih =>
    intro cur
    simp only [mergeSameSpeakerLoop]
    by_cases h : s.speaker = cur.speaker
    · rw [if_pos h, ih]
      simp [List.append_assoc]
    · rw [if_neg h]
      simp only [List.map_cons, List.flatten_cons]
      rw [ih]

/-- `mergeSameSpeaker` preserves the word sequence. -/
theorem mergeSameSpeaker_flatten (l : List AlignedSeg) :
    ((mergeSameSpeaker l).map AlignedSeg.text).flatten
      = (l.map AlignedSeg.text).flatten := by
  cases l with
  | nil => rfl
  | cons s rest => simpa using mergeSameSpeakerLoop_flatten rest s

/-- The per-segment word counts sum to the length of the full output
word sequence. -/
theorem totalWordCount_eq_outWords_length (r : AlignResult) :
    totalWordCount r = (outWords r).length := by
  cases r with
  | original s => rfl
  | aligned l =>
    simp only [totalWordCount, outWords, List.length_flatten, List.map_map]
    rfl

/-- C6.  For every non-empty transcript and non-empty diarization
segment list of positive total duration, the aligned output carries
exactly the transcript's (filtered) words, in order, with none dropped
or duplicated — in particular the total word count across all output
segments equals the transcript's word count. -/
theorem alignment_word_conservation (t : String) (segs : List DiarSeg)
    (ht : t ≠ "") (hs : segs ≠ []) (hd : 0 < totalDuration segs) :
    outWords (align_transcript_with_speakers t segs) = splitIntoWords t
    ∧ totalWordCount (align_transcript_with_speakers t segs)
        = (splitIntoWords t).length := by
  have key : outWords (align_transcript_with_speakers t segs)
      = splitIntoWords t := by
    simp only [align_transcript_with_speakers]
    rw [if_neg (by simp [ht, hs])]
    by_cases hw : splitIntoWords t = []
    · rw [if_pos hw]
      simp [outWords, hw]
    · rw [if_neg hw, if_neg (not_le.mpr hd)]
      obtain ⟨h1, h2, h3, h4⟩ := distributeWords_spec (splitIntoWords t)
        ((splitIntoWords t).length / totalDuration segs) segs 0
        (Nat.zero_le _)
      simp only [List.drop_zero, Nat.sub_zero] at h4
      have houts : (distributeWords (splitIntoWords t)
          ((splitIntoWords t).length / totalDuration segs) segs 0).1 ≠ [] := by
        intro hnil
        rw [hnil] at h3
        exact hs (List.length_eq_zero.mp h3.symm)
      simp only [outWords, mergeSameSpeaker_flatten]
      unfold addLeftover
      by_cases hlt : (distributeWords (splitIntoWords t)
          ((splitIntoWords t).length / totalDuration segs) segs 0).2
          < (splitIntoWords t).length
      · rw [if_pos ⟨hlt, houts⟩, appendToLastText_flatten _ _ houts, h4,
          List.take_append_drop]
      · rw [if_neg (by rintro ⟨hcon, -⟩; exact hlt hcon), h4]
        have hfi : (distributeWords (splitIntoWords t)
            ((splitIntoWords t).length / totalDuration segs) segs 0).2
            = (splitIntoWords t).length := by omega
        rw [hfi, List.take_length]
  exact ⟨key, by rw [totalWordCount_eq_outWords_length, key]⟩

/-- Witness for C6: a three-word transcript distributed over two
segments of one speaker each. -/
theorem alignment_word_conservation_witness :
    outWords (align_transcript_with_speakers "hello there, world!"
        [⟨0, 2, "SPEAKER_00"⟩, ⟨2, 3, "SPEAKER_01"⟩])
      = splitIntoWords "hello there, world!"
    ∧ totalWordCount (align_transcript_with_speakers "hello there, world!"
        [⟨0, 2, "SPEAKER_00"⟩, ⟨2, 3, "SPEAKER_01"⟩])
      = (splitIntoWords "hello there, world!").length :=
  alignment_word_conservation "hello there, world!"
    [⟨0, 2, "SPEAKER_00"⟩, ⟨2, 3, "SPEAKER_01"⟩]
    (by decide) (by decide) (by norm_num [totalDuration])

/-! ## Diarization chunk merge
(`src/workers/core/models.py:_merge_diarization_segments` / `diarize`) -/

/-- The per-segment body of the loop of `_merge_diarization_segments`
(lines 630-650): shift the segment's local timestamps by the chunk
offset (rounding to 3 decimals); for a non-first chunk drop it when it
ends inside the overlap region and truncate its start to the overlap
boundary when it begins inside it; keep it only with positive
duration. -/
def adjustSeg (chunkIdx : Nat) (offset overlap : ℚ) (seg : DiarSeg) :
    Option DiarSeg :=
  let adjStart := round3 (seg.start + offset)
  let adjStop := round3 (seg.stop + offset)
  if 0 < chunkIdx ∧ adjStop ≤ offset + overlap then none
  else
    let adjStart2 :=
      if 0 < chunkIdx ∧ adjStart < offset + overlap then round3 (offset + overlap)
      else adjStart
    if adjStart2 < adjStop then some ⟨adjStart2, adjStop, seg.speaker⟩
    else none

/-- `_merge_diarization_segments` (lines 606-655):
`for chunk_idx, (segments, offset) in enumerate(zip(all_segments,
chunk_offsets))`, adjust every segment, collect the kept ones, and sort
the result by start time (`merged.sort(key=lambda x: x["start"])`,
a stable sort). -/
def mergeDiarizationSegments (allSegments : List (List DiarSeg))
    (chunkOffsets : List ℚ) (overlap : ℚ) : List DiarSeg :=
  if allSegments = [] then []
  else
    ((allSegments.zip chunkOffsets).enum.flatMap
        (fun p => p.2.1.filterMap (adjustSeg p.1 p.2.2 overlap))).mergeSort
      (fun a b => decide (a.start ≤ b.start))

/-- `DIARIZATION_CHUNK_SECONDS` (line 560). -/
def DIARIZATION_CHUNK_SECONDS : ℕ := 180

/-- `DIARIZATION_OVERLAP_SECONDS` (line 563). -/
def DIARIZATION_OVERLAP_SECONDS : ℕ := 10

/-- The chunk offsets computed by `diarize` (lines 698-700):
`step = chunk - overlap`, `offsets = [i * step for i in range(n)]`. -/
def diarizeChunkOffsets (n : ℕ) (chunkDur overlap : ℚ) : List ℚ :=
  (List.range n).map (fun i : ℕ => (i : ℚ) * (chunkDur - overlap))

/-- The merge step of chunked `diarize` (lines 719-724): merge the
per-chunk segment lists at the offsets `i * (chunkDur - overlap)`. -/
def diarizeMerge (allSegments : List (List DiarSeg))
    (chunkDur overlap : ℚ) : List DiarSeg :=
  mergeDiarizationSegments allSegments
    (diarizeChunkOffsets allSegments.length chunkDur overlap) overlap

theorem round3_natCast (n : ℕ) : round3 ((n : ℚ)) = n := by
  have h := round3_intCast (n : ℤ)
  push_cast at h
  exact h

/-- What a kept (adjusted) segment looks like. -/
theorem adjustSeg_eq_some {i : Nat} {o v : ℚ} {s s' : DiarSeg}
    (h : adjustSeg i o v s = some s') :
    s'.speaker = s.speaker
    ∧ s'.stop = round3 (s.stop + o)
    ∧ s'.start < s'.stop
    ∧ (s'.start = round3 (s.start + o) ∨ s'.start = round3 (o + v))
    ∧ (0 < i →
        (s'.start = round3 (o + v)
          ∨ (o + v ≤ round3 (s.start + o) ∧ s'.start = round3 (s.start + o)))) := by
  simp only [adjustSeg] at h
  split at h
  · exact absurd h (by simp)
  · split at h
    · next htrim =>
      split at h
      · next hkeep =>
        rw [Option.some_inj] at h
        subst h
        exact ⟨rfl, rfl, hkeep, Or.inr rfl, fun _ => Or.inl rfl⟩
      · exact absurd h (by simp)
    · next htrim =>
      split at h
      · next hkeep =>
        rw [Option.some_inj] at h
        subst h
        refine ⟨rfl, rfl, hkeep, Or.inl rfl, ?_⟩
        intro hi
        right
        refine ⟨?_, rfl⟩
        rcases not_and_or.mp htrim with hcon | hnlt
        · exact absurd hi hcon
        · exact not_lt.mp hnlt
      · exact absurd h (by simp)

/-- A kept segment has positive duration, ends by the chunk's end
(`offset + chunkDur`) and, for a non-first chunk, starts no earlier
than the overlap boundary (`offset + overlap`). -/
theorem adjustSeg_bounds {i : Nat} {o v dur : ℚ} {s s' : DiarSeg}
    (hov : round3 (o + v) = o + v) (hod : round3 (o + dur) = o + dur)
    (hstop : s.stop ≤ dur) (h : adjustSeg i o v s = some s') :
    s'.start < s'.stop ∧ s'.stop ≤ o + dur ∧ (0 < i → o + v ≤ s'.start) := by
  obtain ⟨-, hstop', hpos, -, hlow⟩ := adjustSeg_eq_some h
  refine ⟨hpos, ?_, ?_⟩
  · rw [hstop']
    calc round3 (s.stop + o) ≤ round3 (o + dur) :=
          round3_mono (by linarith)
      _ = o + dur := hod
  · intro hi
    rcases hlow hi with heq | ⟨hge, heq⟩
    · rw [heq, hov]
    · rw [heq]
      exact hge

/-- Within one chunk, adjusting preserves the non-overlapping chain. -/
theorem adjustSeg_chain {i : Nat} {o v : ℚ} (hov : round3 (o + v) = o + v)
    {segs : List DiarSeg}
    (hp : List.Pairwise (fun a b => a.stop ≤ b.start) segs) :
    List.Pairwise (fun a b => a.stop ≤ b.start)
      (segs.filterMap (adjustSeg i o v)) := by
  rw [List.pairwise_filterMap]
  refine hp.imp ?_
  intro a b hab a' ha' b' hb'
  rw [Option.mem_def] at ha' hb'
  obtain ⟨-, hastop, -, -, -⟩ := adjustSeg_eq_some ha'
  obtain ⟨-, -, -, hbstart, -⟩ := adjustSeg_eq_some hb'
  have hmono : round3 (a.stop + o) ≤ round3 (b.start + o) :=
    round3_mono (by linarith)
  rcases hbstart with heq | heq
  · rw [hastop, heq]
    exact hmono
  · -- b starts at the overlap boundary, either because it was truncated
    -- (its shifted start was below the boundary) or because its shifted
    -- start happens to equal the boundary
    rw [hastop, heq, hov]
    simp only [adjustSeg] at hb'
    split at hb'
    · exact absurd hb' (by simp)
    · split at hb'
      · next htrim =>
        have hblt : round3 (b.start + o) < o + v := htrim.2
        linarith
      · next htrim =>
        split at hb'
        · next hkeep =>
          rw [Option.some_inj] at hb'
          have hbs : b'.start = round3 (b.start + o) := by rw [← hb']
          rw [hbs] at heq
          rw [← hov, ← heq]
          exact hmono
        · exact absurd hb' (by simp)

/-- Offsets of the form `k * (D - V) + m` with natural `k, m, D, V` are
unchanged by 3-decimal rounding. -/
theorem round3_offset_add (D V : ℕ) (hVD : V ≤ D) (k m : ℕ) :
    round3 ((k : ℚ) * ((D : ℚ) - (V : ℚ)) + (m : ℚ))
      = (k : ℚ) * ((D : ℚ) - (V : ℚ)) + (m : ℚ) := by
  have hcast : (k : ℚ) * ((D : ℚ) - (V : ℚ)) + (m : ℚ)
      = ((k * (D - V) + m : ℕ) : ℚ) := by
    push_cast [Nat.cast_sub hVD]
    ring
  rw [hcast, round3_natCast]

/-- The end of chunk `i` (`offset_i + chunkDur`) never passes the overlap
boundary of a later chunk `j` (`offset_j + overlap`). -/
theorem offsets_gap (D V : ℕ) (hVD : V ≤ D) {i j : ℕ} (hij : i < j) :
    (i : ℚ) * ((D : ℚ) - (V : ℚ)) + (D : ℚ)
      ≤ (j : ℚ) * ((D : ℚ) - (V : ℚ)) + (V : ℚ) := by
  have hc : (0 : ℚ) ≤ (D : ℚ) - (V : ℚ) := by
    have hv : (V : ℚ) ≤ (D : ℚ) := by exact_mod_cast hVD
    linarith
  have hij1 : ((i : ℚ) + 1) ≤ (j : ℚ) := by exact_mod_cast hij
  calc (i : ℚ) * ((D : ℚ) - (V : ℚ)) + (D : ℚ)
      = ((i : ℚ) + 1) * ((D : ℚ) - (V : ℚ)) + (V : ℚ) := by ring
    _ ≤ (j : ℚ) * ((D : ℚ) - (V : ℚ)) + (V : ℚ) := by
        have hmul := mul_le_mul_of_nonneg_right hij1 hc
        linarith

/-- Membership in an enumerate-and-concatenate loop comes from one
indexed element. -/
theorem mem_enum_flatMap {α β : Type} {L : List α} {f : ℕ × α → List β}
    {x : β} (hx : x ∈ L.enum.flatMap f) :
    ∃ (k : ℕ) (hk : k < L.length), x ∈ f (k, L[k]) := by
  rw [List.mem_flatMap] at hx
  obtain ⟨p, hp, hxf⟩ := hx
  obtain ⟨k, hk, hpe⟩ := List.mem_iff_getElem.mp hp
  rw [List.getElem_enum] at hpe
  refine ⟨k, by simpa using hk, ?_⟩
  rw [hpe]
  exact hxf

/-- Pairwise property of an enumerate-and-concatenate loop, from the
within-piece and the cross-piece properties. -/
theorem pairwise_enum_flatMap {α β : Type} (L : List α) (f : ℕ × α → List β)
    (R : β → β → Prop)
    (hinner : ∀ (i : ℕ) (hi : i < L.length), List.Pairwise R (f (i, L[i])))
    (hcross : ∀ (i j : ℕ) (hi : i < L.length) (hj : j < L.length), i < j →
        ∀ x ∈ f (i, L[i]), ∀ y ∈ f (j, L[j]), R x y) :
    List.Pairwise R (L.enum.flatMap f) := by
  rw [List.flatMap_def, List.pairwise_flatten]
  constructor
  · intro l hl
    rw [List.mem_map] at hl
    obtain ⟨p, hp, rfl⟩ := hl
    obtain ⟨k, hk, hpe⟩ := List.mem_iff_getElem.mp hp
    rw [List.getElem_enum] at hpe
    rw [← hpe]
    exact hinner k (by simpa using hk)
  · rw [List.pairwise_iff_getElem]
    intro i j hi hj hij
    simp only [List.length_map, List.enum_length] at hi hj
    rw [List.getElem_map, List.getElem_map, List.getElem_enum,
      List.getElem_enum]
    exact hcross i j hi hj hij

/-- C5 (amended).  For chunked diarization at a chunk duration of `D`
seconds and an overlap of `V < D` seconds (the source uses `D = 180`,
`V = 10`), if each chunk's own segment list is a non-overlapping chain
(each segment ends no later than the next starts) with segments ending
within the chunk duration, then the merge — which shifts each segment by
its chunk offset `i * (D - V)`, drops segments ending inside the overlap
region, truncates segments straddling the boundary to begin at it, and
sorts by start time — produces a final list that is non-overlapping with
strictly increasing start times. -/
theorem diarization_merge_sorted_nonoverlapping (D V : ℕ) (hVD : V < D)
    (allSegments : List (List DiarSeg))
    (hchunks : ∀ chunk ∈ allSegments,
      List.Pairwise (fun a b => a.stop ≤ b.start) chunk
      ∧ ∀ s ∈ chunk, s.stop ≤ (D : ℚ)) :
    List.Pairwise (fun a b : DiarSeg => a.stop ≤ b.start)
      (diarizeMerge allSegments (D : ℚ) (V : ℚ))
    ∧ List.Pairwise (fun a b : DiarSeg => a.start < b.start)
      (diarizeMerge allSegments (D : ℚ) (V : ℚ)) := by
  by_cases hne : allSegments = []
  · subst hne
    simp [diarizeMerge, mergeDiarizationSegments]
  · have hunfold : diarizeMerge allSegments (D : ℚ) (V : ℚ)
        = ((allSegments.zip
              (diarizeChunkOffsets allSegments.length (D : ℚ) (V : ℚ))).enum.flatMap
            (fun p => p.2.1.filterMap (adjustSeg p.1 p.2.2 (V : ℚ)))).mergeSort
          (fun a b => decide (a.start ≤ b.start)) := by
      rw [diarizeMerge, mergeDiarizationSegments, if_neg hne]
    rw [hunfold]
    set zipped := allSegments.zip
      (diarizeChunkOffsets allSegments.length (D : ℚ) (V : ℚ)) with hzipped
    set f : ℕ × (List DiarSeg × ℚ) → List DiarSeg :=
      fun p => p.2.1.filterMap (adjustSeg p.1 p.2.2 (V : ℚ)) with hf
    set pre := zipped.enum.flatMap f with hpre
    -- the indexed shape of the zipped list
    have hlz : zipped.length ≤ allSegments.length := by
      rw [hzipped, List.length_zip]
      omega
    have hzelem : ∀ (k : ℕ) (hk : k < zipped.length),
        zipped[k].1 ∈ allSegments
          ∧ zipped[k].2 = (k : ℚ) * ((D : ℚ) - (V : ℚ)) := by
      intro k hk
      have hk1 : k < allSegments.length := lt_of_lt_of_le hk hlz
      have hk2 : k < (diarizeChunkOffsets allSegments.length
          (D : ℚ) (V : ℚ)).length := by
        unfold diarizeChunkOffsets
        rw [List.length_map, List.length_range]
        exact hk1
      have hz : zipped[k] = (allSegments[k],
          (diarizeChunkOffsets allSegments.length (D : ℚ) (V : ℚ))[k]) :=
        List.getElem_zip
      rw [hz]
      constructor
      · exact List.getElem_mem hk1
      · unfold diarizeChunkOffsets
        rw [List.getElem_map, List.getElem_range]
    -- round3 fixes the two boundaries of every chunk
    have hov : ∀ k : ℕ, round3 ((k : ℚ) * ((D : ℚ) - (V : ℚ)) + (V : ℚ))
        = (k : ℚ) * ((D : ℚ) - (V : ℚ)) + (V : ℚ) :=
      fun k => round3_offset_add D V hVD.le k V
    have hod : ∀ k : ℕ, round3 ((k : ℚ) * ((D : ℚ) - (V : ℚ)) + (D : ℚ))
        = (k : ℚ) * ((D : ℚ) - (V : ℚ)) + (D : ℚ) :=
      fun k => round3_offset_add D V hVD.le k D
    -- every kept segment is non-degenerate
    have hK1 : ∀ x ∈ pre, x.start < x.stop := by
      intro x hx
      obtain ⟨k, hk, hxf⟩ := mem_enum_flatMap hx
      obtain ⟨hmem, hoffk⟩ := hzelem k hk
      rw [hf] at hxf
      simp only at hxf
      rw [List.mem_filterMap] at hxf
      obtain ⟨s, hsin, hadj⟩ := hxf
      rw [hoffk] at hadj
      exact (adjustSeg_bounds (hov k) (hod k)
        ((hchunks _ hmem).2 s hsin) hadj).1
    -- the concatenated kept segments form a non-overlapping chain
    have hK2 : List.Pairwise (fun a b : DiarSeg => a.stop ≤ b.start) pre := by
      rw [hpre]
      apply pairwise_enum_flatMap
      · intro i hi
        obtain ⟨hmem, hoffi⟩ := hzelem i hi
        rw [hf]
        simp only
        rw [hoffi]
        exact adjustSeg_chain (hov i) (hchunks _ hmem).1
      · intro i j hi hj hij x hx y hy
        obtain ⟨hmemi, hoffi⟩ := hzelem i hi
        obtain ⟨hmemj, hoffj⟩ := hzelem j hj
        rw [hf] at hx hy
        simp only at hx hy
        rw [List.mem_filterMap] at hx hy
        obtain ⟨sx, hsxin, hadjx⟩ := hx
        obtain ⟨sy, hsyin, hadjy⟩ := hy
        rw [hoffi] at hadjx
        rw [hoffj] at hadjy
        have hbx := adjustSeg_bounds (hov i) (hod i)
          ((hchunks _ hmemi).2 sx hsxin) hadjx
        have hby := adjustSeg_bounds (hov j) (hod j)
          ((hchunks _ hmemj).2 sy hsyin) hadjy
        have hjpos : 0 < j := by omega
        calc x.stop ≤ (i : ℚ) * ((D : ℚ) - (V : ℚ)) + (D : ℚ) := hbx.2.1
          _ ≤ (j : ℚ) * ((D : ℚ) - (V : ℚ)) + (V : ℚ) :=
              offsets_gap D V hVD.le hij
          _ ≤ y.start := hby.2.2 hjpos
    -- transfer through the stable sort
    have hperm : (pre.mergeSort (fun a b => decide (a.start ≤ b.start))).Perm
        pre := List.mergeSort_perm pre _
    have hsorted : List.Pairwise
        (fun a b : DiarSeg => a.start ≤ b.start)
        (pre.mergeSort (fun a b => decide (a.start ≤ b.start))) := by
      have h := @List.sorted_mergeSort DiarSeg
        (fun a b => decide (a.start ≤ b.start))
        (by intro a b c hab hbc
            simp only [decide_eq_true_eq] at hab hbc ⊢
            exact le_trans hab hbc)
        (by intro a b
            rcases le_total a.start b.start with h | h <;> simp [h])
        pre
      exact h.imp (fun hab => of_decide_eq_true hab)
    have hdisj : List.Pairwise
        (fun a b : DiarSeg => a.stop ≤ b.start ∨ b.stop ≤ a.start)
        (pre.mergeSort (fun a b => decide (a.start ≤ b.start))) := by
      have hsym : ∀ {x y : DiarSeg},
          (x.stop ≤ y.start ∨ y.stop ≤ x.start) →
          (y.stop ≤ x.start ∨ x.stop ≤ y.start) :=
        fun h => h.elim Or.inr Or.inl
      exact (List.Perm.pairwise_iff hsym hperm).mpr
        (hK2.imp (fun h => Or.inl h))
    have hmemsorted : ∀ x ∈ pre.mergeSort
        (fun a b => decide (a.start ≤ b.start)), x.start < x.stop :=
      fun x hx => hK1 x (hperm.mem_iff.mp hx)
    have hfinal : List.Pairwise (fun a b : DiarSeg => a.stop ≤ b.start)
        (pre.mergeSort (fun a b => decide (a.start ≤ b.start))) := by
      refine (hdisj.and hsorted).imp_of_mem ?_
      rintro a b ha hb ⟨hd, hle⟩
      rcases hd with h | h
      · exact h
      · have hbpos := hmemsorted b hb
        linarith
    refine ⟨hfinal, ?_⟩
    refine hfinal.imp_of_mem ?_
    intro a b ha hb h
    have hapos := hmemsorted a ha
    linarith

/-- C5 counterexample.  The claim as stated — for *every* list of
per-chunk diarization segment lists, the merged output has
non-overlapping, monotonically increasing start times — fails on a
single chunk whose own segments overlap (as pyannote emits for
simultaneous speakers): two segments starting at 0 survive the merge
unchanged, so the output is neither non-overlapping nor strictly
increasing in start time. -/
theorem diarization_merge_counterexample :
    ¬ (List.Pairwise (fun a b : DiarSeg => a.stop ≤ b.start)
        (mergeDiarizationSegments
          [[⟨0, 5, "SPEAKER_00"⟩, ⟨0, 4, "SPEAKER_01"⟩]] [0] 10)
      ∧ List.Pairwise (fun a b : DiarSeg => a.start < b.start)
        (mergeDiarizationSegments
          [[⟨0, 5, "SPEAKER_00"⟩, ⟨0, 4, "SPEAKER_01"⟩]] [0] 10)) := by
  have e0 : round3 ((0 : ℚ) + 0) = 0 := by simpa using round3_natCast 0
  have e5 : round3 ((5 : ℚ) + 0) = 5 := by simpa using round3_natCast 5
  have e4 : round3 ((4 : ℚ) + 0) = 4 := by simpa using round3_natCast 4
  have hadj1 : adjustSeg 0 0 10 ⟨0, 5, "SPEAKER_00"⟩
      = some ⟨0, 5, "SPEAKER_00"⟩ := by
    simp only [adjustSeg]
    rw [if_neg (show ¬((0 : ℕ) < 0 ∧ round3 ((5 : ℚ) + 0) ≤ 0 + 10) by simp)]
    rw [if_neg (show ¬((0 : ℕ) < 0 ∧ round3 ((0 : ℚ) + 0) < 0 + 10) by simp)]
    rw [e0, e5, if_pos (by norm_num : (0 : ℚ) < 5)]
  have hadj2 : adjustSeg 0 0 10 ⟨0, 4, "SPEAKER_01"⟩
      = some ⟨0, 4, "SPEAKER_01"⟩ := by
    simp only [adjustSeg]
    rw [if_neg (show ¬((0 : ℕ) < 0 ∧ round3 ((4 : ℚ) + 0) ≤ 0 + 10) by simp)]
    rw [if_neg (show ¬((0 : ℕ) < 0 ∧ round3 ((0 : ℚ) + 0) < 0 + 10) by simp)]
    rw [e0, e4, if_pos (by norm_num : (0 : ℚ) < 4)]
  have henum : (([[(⟨0, 5, "SPEAKER_00"⟩ : DiarSeg),
      ⟨0, 4, "SPEAKER_01"⟩]].zip [(0 : ℚ)]).enum)
      = [(0, ([⟨0, 5, "SPEAKER_00"⟩, ⟨0, 4, "SPEAKER_01"⟩], (0 : ℚ)))] := rfl
  have hmerge : mergeDiarizationSegments
      [[⟨0, 5, "SPEAKER_00"⟩, ⟨0, 4, "SPEAKER_01"⟩]] [0] 10
      = ([(⟨0, 5, "SPEAKER_00"⟩ : DiarSeg),
          ⟨0, 4, "SPEAKER_01"⟩].mergeSort
          (fun a b => decide (a.start ≤ b.start))) := by
    rw [mergeDiarizationSegments, if_neg (by simp), henum]
    congr 1
    simp [hadj1, hadj2, List.filterMap_cons]
  rw [hmerge]
  rintro ⟨h1, h2⟩
  have hperm := List.mergeSort_perm
    [(⟨0, 5, "SPEAKER_00"⟩ : DiarSeg), ⟨0, 4, "SPEAKER_01"⟩]
    (fun a b => decide (a.start ≤ b.start))
  have hA : (⟨0, 5, "SPEAKER_00"⟩ : DiarSeg) ∈
      ([(⟨0, 5, "SPEAKER_00"⟩ : DiarSeg), ⟨0, 4, "SPEAKER_01"⟩].mergeSort
        (fun a b => decide (a.start ≤ b.start))) :=
    hperm.mem_iff.mpr (by simp)
  have hB : (⟨0, 4, "SPEAKER_01"⟩ : DiarSeg) ∈
      ([(⟨0, 5, "SPEAKER_00"⟩ : DiarSeg), ⟨0, 4, "SPEAKER_01"⟩].mergeSort
        (fun a b => decide (a.start ≤ b.start))) :=
    hperm.mem_iff.mpr (by simp)
  have hAB : (⟨0, 5, "SPEAKER_00"⟩ : DiarSeg) ≠ ⟨0, 4, "SPEAKER_01"⟩ := by
    intro hcon
    rw [DiarSeg.mk.injEq] at hcon
    exact absurd hcon.2.2 (by decide)
  have h2' : List.Pairwise
      (fun a b : DiarSeg => a.start < b.start ∨ b.start < a.start)
      ([(⟨0, 5, "SPEAKER_00"⟩ : DiarSeg), ⟨0, 4, "SPEAKER_01"⟩].mergeSort
        (fun a b => decide (a.start ≤ b.start))) :=
    h2.imp (fun h => Or.inl h)
  have hsym : Symmetric
      (fun a b : DiarSeg => a.start < b.start ∨ b.start < a.start) :=
    fun a b h => h.elim Or.inr Or.inl
  have hcon := List.Pairwise.forall hsym h2' hA hB hAB
  rcases hcon with h | h
  · exact absurd h (lt_irrefl _)
  · exact absurd h (lt_irrefl _)

/-- Witness for the amended C5 at `D = 180`, `V = 10`: two chunks, each
with one in-bounds segment. -/
theorem diarization_merge_sorted_nonoverlapping_witness :
    List.Pairwise (fun a b : DiarSeg => a.stop ≤ b.start)
      (diarizeMerge [[⟨0, 170, "S0"⟩], [⟨5, 20, "S1"⟩]]
        ((180 : ℕ) : ℚ) ((10 : ℕ) : ℚ))
    ∧ List.Pairwise (fun a b : DiarSeg => a.start < b.start)
      (diarizeMerge [[⟨0, 170, "S0"⟩], [⟨5, 20, "S1"⟩]]
        ((180 : ℕ) : ℚ) ((10 : ℕ) : ℚ)) := by
  apply diarization_merge_sorted_nonoverlapping 180 10 (by decide)
  intro chunk hc
  simp only [List.mem_cons, List.not_mem_nil, or_false] at hc
  rcases hc with rfl | rfl
  · refine ⟨by simp, ?_⟩
    intro s hs
    simp only [List.mem_cons, List.not_mem_nil, or_false] at hs
    subst hs
    push_cast
    norm_num
  · refine ⟨by simp, ?_⟩
    intro s hs
    simp only [List.mem_cons, List.not_mem_nil, or_false] at hs
    subst hs
    push_cast
    norm_num
